import Mathlib

set_option maxRecDepth 100000

/-!
Shallow embedding of `base8x.py`, a configurable base-85..95 binary/ASCII
codec.  Bytes and characters are modelled as natural numbers (byte values
0..255, characters by their code points), Python strings and byte strings
become `List Nat`, and the `ValueError` exceptions raised while decoding
become an `Except DecodeErr` result.  Python's arbitrary-precision integers
are `Nat`.
-/

/-- Constant `_MAXVAL = 2 ** 32 - 1` from the source. -/
def _MAXVAL : Nat := 2 ^ 32 - 1

/-- Loop of the generator `_chunkby(seq, stride, padding)`: items are
accumulated into `tmp`; whenever `tmp` reaches `stride` items it is yielded
with padding count 0 and reset; when the input runs out, a non-empty `tmp`
is yielded with padding count `stride - len(tmp)`, extended by that many
copies of the padding item when one was supplied. -/
def chunkbyAux {α : Type} (stride : Nat) (padding : Option α) :
    List α → List α → List (List α × Nat)
  | tmp, [] =>
      if tmp.length = 0 then []
      else
        match padding with
        | some p => [(tmp ++ List.replicate (stride - tmp.length) p, stride - tmp.length)]
        | none => [(tmp, stride - tmp.length)]
  | tmp, x :: xs =>
      if (tmp ++ [x]).length = stride then
        (tmp ++ [x], 0) :: chunkbyAux stride padding [] xs
      else
        chunkbyAux stride padding (tmp ++ [x]) xs

/-- Generator `_chunkby(seq, stride, padding)` of the source, materialized as
a list of `(chunk, npadding)` pairs.  The source raises `ValueError` when
`stride <= 0`; in this module the stride is always 4 or 5, so that branch is
never taken and is not modelled. -/
def _chunkby {α : Type} (stride : Nat) (padding : Option α) (seq : List α) :
    List (List α × Nat) :=
  chunkbyAux stride padding [] seq

/-- Loop of `_validate_alphabet`: one candidate character at a time, reject
on a repeated character (`item in seen`) or a non-printable one
(`not 32 <= ord(item) <= 126`); afterwards accept exactly when the collected
size lies in `[85, 95]`.  `seen` mirrors the source's set of already accepted
characters, `accept` the accepted list. -/
def validateAux : List Nat → List Nat → List Nat → Option (List Nat)
  | _, accept, [] =>
      if 85 ≤ accept.length ∧ accept.length ≤ 95 then some accept else none
  | seen, accept, item :: rest =>
      if item ∈ seen ∨ ¬(32 ≤ item ∧ item ≤ 126) then none
      else validateAux (item :: seen) (accept ++ [item]) rest

/-- Function `_validate_alphabet(seq)` of the source: `none` models the
`None` returned for an invalid alphabet. -/
def _validate_alphabet (seq : List Nat) : Option (List Nat) :=
  validateAux [] [] seq

/-- Class `Base8xCodec`, holding the validated alphabet (`self._alphabet`).
The derived attributes `_radix`, `_ordmap`, `_powersofradix` and
`_powersenum` are recomputed from the alphabet by the functions below. -/
structure Base8xCodec where
  alphabet : List Nat
deriving DecidableEq, Repr

/-- Constructor `Base8xCodec(alphabet)`: validates the alphabet and raises
`ValueError` (modelled by `none`) when `_validate_alphabet` returns `None`. -/
def Base8xCodec.mk? (alphabet : List Nat) : Option Base8xCodec :=
  match _validate_alphabet alphabet with
  | none => none
  | some l => some ⟨l⟩

/-- Attribute `self._radix = len(self._alphabet)`. -/
def Base8xCodec.radix (c : Base8xCodec) : Nat := c.alphabet.length

/-- Attribute `self._powersofradix = [radix ** p for p in xrange(4, -1, -1)]`. -/
def powersofradix (radix : Nat) : List Nat :=
  [radix ^ 4, radix ^ 3, radix ^ 2, radix ^ 1, radix ^ 0]

/-- Attribute `self._powersenum = [p for p in enumerate(self._powersofradix)]`. -/
def powersenum (radix : Nat) : List (Nat × Nat) :=
  (powersofradix radix).enum

/-- Lookup in `self._ordmap`, the dictionary mapping each alphabet character
to its index (`dict((chr, idx) for idx, chr in enumerate(alphabet))`); a
missing key (Python's `KeyError`) is `none`.  The alphabet of a constructed
codec has no duplicates, so first-index lookup agrees with the dictionary. -/
def ordLookup : List Nat → Nat → Option Nat
  | [], _ => none
  | a :: rest, c => if a = c then some 0 else (ordLookup rest c).map (fun i => i + 1)

/-- Static method `_get_num_by_seq_enc(seq)`: `struct.unpack(">1I", seq)`,
the unsigned big-endian 32-bit value of the 4-byte group (the chunker always
supplies exactly 4 bytes). -/
def _get_num_by_seq_enc (seq : List Nat) : Nat :=
  seq.foldl (fun acc b => acc * 256 + b) 0

/-- Method `_encode_quartet(num)`: one character
`alphabet[(num // offset) % radix]` per entry of `_powersofradix`.  The index
is always below `len(alphabet)`, so `getD` with default 0 is plain list
indexing here. -/
def _encode_quartet (alphabet : List Nat) (num : Nat) : List Nat :=
  (powersofradix alphabet.length).map
    (fun offset => alphabet.getD (num / offset % alphabet.length) 0)

/-- Errors raised by `_get_num_by_seq_dec` as `ValueError`s in the source:
an input character absent from the alphabet (with the whole 5-item group,
the character — whose code point is its ordinal — and its position), or a
fully accumulated group value exceeding `_MAXVAL` (with the group and the
value). -/
inductive DecodeErr where
  | illegalCharacter (seq : List Nat) (char : Nat) (pos : Nat)
  | illegalSequence (seq : List Nat) (val : Nat)
deriving DecidableEq, Repr

/-- Loop of `_get_num_by_seq_dec`: `for i, offset in self._powersenum`,
accumulating `val += ordmap[seq[i]] * offset` and failing on a character
outside the alphabet.  The chunker always supplies 5 items, so `seq.getD i 0`
is the source's `seq[i]`. -/
def get_num_by_seq_dec_aux (alphabet seq : List Nat) :
    List (Nat × Nat) → Nat → Except DecodeErr Nat
  | [], val => .ok val
  | (i, offset) :: rest, val =>
      match ordLookup alphabet (seq.getD i 0) with
      | none => .error (.illegalCharacter seq (seq.getD i 0) i)
      | some pos => get_num_by_seq_dec_aux alphabet seq rest (val + pos * offset)

/-- Method `_get_num_by_seq_dec(seq)`: the accumulated value of a 5-item
group, checked against `_MAXVAL` after the loop. -/
def _get_num_by_seq_dec (alphabet seq : List Nat) : Except DecodeErr Nat :=
  match get_num_by_seq_dec_aux alphabet seq (powersenum alphabet.length) 0 with
  | .error e => .error e
  | .ok val => if _MAXVAL < val then .error (.illegalSequence seq val) else .ok val

/-- Static method `_decode_quintet(num)`: `struct.pack(">1I", num)`, the 4
big-endian bytes of `num` (always called with `num <= _MAXVAL`, for which
packing succeeds). -/
def _decode_quintet (num : Nat) : List Nat :=
  [num / 2 ^ 24 % 256, num / 2 ^ 16 % 256, num / 2 ^ 8 % 256, num % 256]

/-- Method `encode(text)`: the encoding pipeline built by
`_codec_generator_factory(4, 5, "\x00", _get_num_by_seq_enc,
_encode_quartet)`, joined — each 4-byte chunk becomes
`num2outgroup(val)[:5 - npadding]`. -/
def Base8xCodec.encode (c : Base8xCodec) (text : List Nat) : List Nat :=
  ((_chunkby 4 (some 0) text).map
    (fun p => (_encode_quartet c.alphabet (_get_num_by_seq_enc p.1)).take (5 - p.2))).flatten

/-- Consuming the decoding generator chunk by chunk: each 5-item chunk is
converted by `_get_num_by_seq_dec` and truncated to `4 - npadding` bytes; an
error aborts the whole call with no partial result, exactly as the exception
does in `b"".join(decoder(text))`. -/
def Base8xCodec.decode_chunks (c : Base8xCodec) :
    List (List Nat × Nat) → Except DecodeErr (List Nat)
  | [] => .ok []
  | (chunk, npadding) :: rest =>
      match _get_num_by_seq_dec c.alphabet chunk with
      | .error e => .error e
      | .ok val =>
        match c.decode_chunks rest with
        | .error e => .error e
        | .ok tail => .ok ((_decode_quintet val).take (4 - npadding) ++ tail)

/-- Method `decode(text)`: the decoding pipeline built by
`_codec_generator_factory(5, 4, alphabet[-1], _get_num_by_seq_dec,
_decode_quintet)`, joined.  The padding character is the last (highest
valued) alphabet character. -/
def Base8xCodec.decode (c : Base8xCodec) (text : List Nat) :
    Except DecodeErr (List Nat) :=
  c.decode_chunks (_chunkby 5 (some (c.alphabet.getLast?.getD 0)) text)

/-- Module-level `z85codec` alphabet, the source's string literal
`"0123456789...XYZ.-:+=^!/*?&<>()[]{}@%$#"` as code points. -/
def z85alphabet : List Nat :=
  ("0123456789abcdefghijklmnopqrstuvwxyzABCDEFGHIJKLMNOPQRSTUVWXYZ.-:+=^!/*?&<>()[]\x7b\x7d@%$#").data.map Char.toNat

/-- Module-level ready-made codec `z85codec = Base8xCodec("0123...$#")`. -/
def z85codec : Base8xCodec := ⟨z85alphabet⟩

/-- Alphabet of the doctest's Adobe-85-style codec,
`(chr(x) for x in xrange(33, 33 + 85))`. -/
def adobe85alphabet : List Nat := List.range' 33 85

/-- Doctest codec `adobe85codec = Base8xCodec(chr(x) for x in xrange(33, 33 + 85))`. -/
def adobe85codec : Base8xCodec := ⟨adobe85alphabet⟩

/-! Soundness and completeness of alphabet validation. -/

/-- Invariant step for the validator: pushing the same character onto the
seen set and the accept list preserves their membership agreement. -/
lemma seen_accept_step (x : Nat) (seen accept : List Nat)
    (hiff : ∀ y, y ∈ seen ↔ y ∈ accept) (y : Nat) :
    y ∈ x :: seen ↔ y ∈ accept ++ [x] := by
  have h := hiff y
  rw [List.mem_cons, List.mem_append, List.mem_singleton]
  tauto

/-- Whatever `validateAux` accepts is the whole input appended to the
accumulator, printable, of size 85..95, and (given the seen/accept
invariant) duplicate-free. -/
lemma validateAux_sound (seq : List Nat) :
    ∀ (seen accept l : List Nat), validateAux seen accept seq = some l →
      l = accept ++ seq ∧ 85 ≤ l.length ∧ l.length ≤ 95 ∧
      (∀ x ∈ seq, 32 ≤ x ∧ x ≤ 126) ∧
      ((∀ x, x ∈ seen ↔ x ∈ accept) → accept.Nodup → l.Nodup) := by
  induction seq with
  | nil =>
      intro seen accept l h
      simp only [validateAux] at h
      split at h
      · rename_i hlen
        cases h
        exact ⟨by simp, hlen.1, hlen.2, by simp, fun _ hnd => hnd⟩
      · cases h
  | cons x rest ih =>
      intro seen accept l h
      simp only [validateAux] at h
      split at h
      · cases h
      · rename_i hcond
        push_neg at hcond
        obtain ⟨hseen, hprint⟩ := hcond
        obtain ⟨hl, h85, h95, hp, hnd⟩ := ih (x :: seen) (accept ++ [x]) l h
        refine ⟨by simpa using hl, h85, h95, ?_, ?_⟩
        · intro y hy
          rcases List.mem_cons.mp hy with rfl | hy'
          · exact hprint
          · exact hp y hy'
        · intro hiff hacc
          apply hnd
          · exact seen_accept_step x seen accept hiff
          · rw [List.nodup_append]
            refine ⟨hacc, List.nodup_singleton x, ?_⟩
            intro y hy hy'
            rw [List.mem_singleton] at hy'
            subst hy'
            exact hseen ((hiff y).mpr hy)

/-- Any alphabet returned by `_validate_alphabet` is the input itself, and
it is duplicate-free, printable and of size 85..95. -/
lemma validate_sound (a l : List Nat) (h : _validate_alphabet a = some l) :
    l = a ∧ a.Nodup ∧ 85 ≤ a.length ∧ a.length ≤ 95 ∧
      ∀ x ∈ a, 32 ≤ x ∧ x ≤ 126 := by
  obtain ⟨hl, h85, h95, hp, hnd⟩ := validateAux_sound a [] [] l h
  simp only [List.nil_append] at hl
  subst hl
  exact ⟨rfl, hnd (by simp) List.nodup_nil, h85, h95, hp⟩

/-- Properties of a validly constructed codec: its alphabet is the input
alphabet, with unique printable characters and size 85..95. -/
lemma mk?_sound (a : List Nat) (c : Base8xCodec) (h : Base8xCodec.mk? a = some c) :
    c.alphabet = a ∧ a.Nodup ∧ 85 ≤ a.length ∧ a.length ≤ 95 ∧
      ∀ x ∈ a, 32 ≤ x ∧ x ≤ 126 := by
  unfold Base8xCodec.mk? at h
  split at h
  · cases h
  · rename_i l hval
    cases h
    obtain ⟨hl, hnd, h85, h95, hp⟩ := validate_sound a l hval
    subst hl
    exact ⟨rfl, hnd, h85, h95, hp⟩

/-- Completeness of the validator loop: a duplicate-free printable candidate
of final size 85..95 is accepted verbatim. -/
lemma validateAux_complete (seq : List Nat) :
    ∀ (seen accept : List Nat), (accept ++ seq).Nodup →
      (∀ x ∈ seq, 32 ≤ x ∧ x ≤ 126) →
      (∀ x, x ∈ seen ↔ x ∈ accept) →
      85 ≤ (accept ++ seq).length → (accept ++ seq).length ≤ 95 →
      validateAux seen accept seq = some (accept ++ seq) := by
  induction seq with
  | nil =>
      intro seen accept _ _ _ h85 h95
      simp only [List.append_nil] at h85 h95 ⊢
      simp [validateAux, h85, h95]
  | cons x rest ih =>
      intro seen accept hnd hp hiff h85 h95
      have hxacc : x ∉ accept := by
        rw [List.nodup_append] at hnd
        intro hx
        exact hnd.2.2 hx (List.mem_cons_self x rest)
      have hcond : ¬(x ∈ seen ∨ ¬(32 ≤ x ∧ x ≤ 126)) := by
        push_neg
        exact ⟨fun hx => hxacc ((hiff x).mp hx), hp x (List.mem_cons_self x rest)⟩
      simp only [validateAux, if_neg hcond]
      have hassoc : accept ++ [x] ++ rest = accept ++ x :: rest := by simp
      rw [ih (x :: seen) (accept ++ [x]) (by rwa [hassoc])
        (fun y hy => hp y (List.mem_cons_of_mem x hy))
        (seen_accept_step x seen accept hiff)
        (by rwa [hassoc]) (by rwa [hassoc]), hassoc]

/-- Completeness of construction: a duplicate-free printable alphabet of
size 85..95 yields a codec holding exactly that alphabet. -/
lemma mk?_complete (a : List Nat) (hnd : a.Nodup)
    (hp : ∀ x ∈ a, 32 ≤ x ∧ x ≤ 126) (h85 : 85 ≤ a.length) (h95 : a.length ≤ 95) :
    Base8xCodec.mk? a = some ⟨a⟩ := by
  unfold Base8xCodec.mk? _validate_alphabet
  rw [validateAux_complete a [] [] (by simpa using hnd) hp (by simp)
    (by simpa using h85) (by simpa using h95)]
  simp

/-! Lookup lemmas for the order map. -/

/-- Indexing within bounds lands in the list. -/
lemma getD_mem (l : List Nat) (i : Nat) (h : i < l.length) : l.getD i 0 ∈ l := by
  induction l generalizing i with
  | nil => simp at h
  | cons a rest ih =>
      cases i with
      | zero => simp
      | succ j =>
          simp only [List.getD_cons_succ]
          exact List.mem_cons_of_mem a (ih j (by simpa using h))

/-- On a duplicate-free alphabet, looking up the character at index `i`
returns `i` — the order map inverts alphabet indexing. -/
lemma ordLookup_getD (l : List Nat) (hnd : l.Nodup) (i : Nat) (h : i < l.length) :
    ordLookup l (l.getD i 0) = some i := by
  induction l generalizing i with
  | nil => simp at h
  | cons a rest ih =>
      cases i with
      | zero => simp [ordLookup]
      | succ j =>
          have hj : j < rest.length := by simpa using h
          have hne : ¬(a = rest.getD j 0) := by
            intro he
            exact (List.nodup_cons.mp hnd).1 (he ▸ getD_mem rest j hj)
          simp only [List.getD_cons_succ, ordLookup, if_neg hne,
            ih (List.nodup_cons.mp hnd).2 j hj]
          rfl

/-- Lookup of a character outside the alphabet fails (Python's `KeyError`). -/
lemma ordLookup_eq_none (l : List Nat) (c : Nat) (h : c ∉ l) : ordLookup l c = none := by
  induction l with
  | nil => rfl
  | cons a rest ih =>
      have hne : ¬(a = c) := fun he => h (he ▸ List.mem_cons_self a rest)
      simp only [ordLookup, if_neg hne,
        ih (fun hc => h (List.mem_cons_of_mem a hc))]
      rfl

/-- Lookup of an alphabet member succeeds with an in-range index. -/
lemma ordLookup_of_mem (l : List Nat) (c : Nat) (h : c ∈ l) :
    ∃ p, ordLookup l c = some p ∧ p < l.length := by
  induction l with
  | nil => simp at h
  | cons a rest ih =>
      by_cases he : a = c
      · exact ⟨0, by simp [ordLookup, he], by simp⟩
      · obtain ⟨p, hp, hlt⟩ := ih (by
          rcases List.mem_cons.mp h with rfl | hc
          · exact absurd rfl he
          · exact hc)
        exact ⟨p + 1, by simp [ordLookup, he, hp], by simp; omega⟩

/-- The last element (the decode padding character) is the element at index
`length - 1`. -/
lemma getLast?_getD_eq (l : List Nat) (h : l ≠ []) :
    l.getLast?.getD 0 = l.getD (l.length - 1) 0 := by
  induction l with
  | nil => exact absurd rfl h
  | cons a rest ih =>
      cases rest with
      | nil => rfl
      | cons b t =>
          rw [List.getLast?_cons_cons, ih (by simp)]
          show (b :: t).getD ((b :: t).length - 1) 0 =
            (a :: b :: t).getD ((a :: b :: t).length - 1) 0
          simp only [List.length_cons, Nat.add_sub_cancel, List.getD_cons_succ]

/-- Looking up the decode padding character `alphabet[-1]` yields the top
digit value `radix - 1`. -/
lemma ordLookup_pad (l : List Nat) (hnd : l.Nodup) (h : l ≠ []) :
    ordLookup l (l.getLast?.getD 0) = some (l.length - 1) := by
  rw [getLast?_getD_eq l h]
  exact ordLookup_getD l hnd _ (by
    have : 0 < l.length := List.length_pos.mpr h
    omega)

/-! Positional-numeral arithmetic. -/

/-- One digit-extraction step: splitting `n` modulo `r ^ (j + 1)` into the
part below `r ^ j` and the digit at position `j`. -/
lemma modstep (n r j : Nat) :
    n % r ^ (j + 1) = n % r ^ j + n / r ^ j % r * r ^ j := by
  rw [pow_succ, Nat.mod_mul]
  ring

/-- Full five-digit expansion of `n < r ^ 5` in radix `r`. -/
lemma digit_split0 (r n : Nat) (hn : n < r ^ 5) :
    n / r ^ 4 % r * r ^ 4 + n / r ^ 3 % r * r ^ 3 + n / r ^ 2 % r * r ^ 2 +
      n / r ^ 1 % r * r ^ 1 + n / r ^ 0 % r * r ^ 0 = n := by
  have h4 := modstep n r 4
  have h3 := modstep n r 3
  have h2 := modstep n r 2
  have h1 := modstep n r 1
  have h0 := modstep n r 0
  have h5 : n % r ^ 5 = n := Nat.mod_eq_of_lt hn
  have hz : n % r ^ 0 = 0 := by
    rw [pow_zero]
    omega
  linarith

/-- Top-four-digit expansion: the remaining part below `r ^ 1` is `n % r`. -/
lemma digit_split1 (r n : Nat) (hn : n < r ^ 5) :
    n / r ^ 4 % r * r ^ 4 + n / r ^ 3 % r * r ^ 3 + n / r ^ 2 % r * r ^ 2 +
      n / r ^ 1 % r * r ^ 1 + n % r ^ 1 = n := by
  have h4 := modstep n r 4
  have h3 := modstep n r 3
  have h2 := modstep n r 2
  have h1 := modstep n r 1
  have h5 : n % r ^ 5 = n := Nat.mod_eq_of_lt hn
  linarith

/-- Top-three-digit expansion of `n < r ^ 5`. -/
lemma digit_split2 (r n : Nat) (hn : n < r ^ 5) :
    n / r ^ 4 % r * r ^ 4 + n / r ^ 3 % r * r ^ 3 + n / r ^ 2 % r * r ^ 2 +
      n % r ^ 2 = n := by
  have h4 := modstep n r 4
  have h3 := modstep n r 3
  have h2 := modstep n r 2
  have h5 : n % r ^ 5 = n := Nat.mod_eq_of_lt hn
  linarith

/-- Top-two-digit expansion of `n < r ^ 5`. -/
lemma digit_split3 (r n : Nat) (hn : n < r ^ 5) :
    n / r ^ 4 % r * r ^ 4 + n / r ^ 3 % r * r ^ 3 + n % r ^ 3 = n := by
  have h4 := modstep n r 4
  have h3 := modstep n r 3
  have h5 : n % r ^ 5 = n := Nat.mod_eq_of_lt hn
  linarith

/-- Geometric identity for one padding digit. -/
lemma geom1 (r : Nat) (h : 1 ≤ r) : (r - 1) * r ^ 0 + 1 = r ^ 1 := by
  simp only [pow_zero, pow_one, Nat.mul_one]
  omega

/-- Geometric identity for two padding digits. -/
lemma geom2 (r : Nat) (h : 1 ≤ r) :
    (r - 1) * r ^ 1 + (r - 1) * r ^ 0 + 1 = r ^ 2 := by
  obtain ⟨s, rfl⟩ : ∃ s, r = s + 1 := ⟨r - 1, by omega⟩
  simp only [Nat.add_sub_cancel]
  ring

/-- Geometric identity for three padding digits. -/
lemma geom3 (r : Nat) (h : 1 ≤ r) :
    (r - 1) * r ^ 2 + (r - 1) * r ^ 1 + (r - 1) * r ^ 0 + 1 = r ^ 3 := by
  obtain ⟨s, rfl⟩ : ∃ s, r = s + 1 := ⟨r - 1, by omega⟩
  simp only [Nat.add_sub_cancel]
  ring

/-- Any 32-bit value fits in five digits of any radix of this codec family. -/
lemma lt_r_pow5 (r n : Nat) (hr : 85 ≤ r) (hn : n < 2 ^ 32) : n < r ^ 5 := by
  have h1 : (85 : Nat) ^ 5 = 4437053125 := by norm_num
  have h2 : (85 : Nat) ^ 5 ≤ r ^ 5 := Nat.pow_le_pow_left hr 5
  omega

/-! Unfolding lemmas for the pipelines (all definitional). -/

/-- Projection of the one-field structure. -/
lemma alphabet_mk (a : List Nat) : Base8xCodec.alphabet ⟨a⟩ = a := rfl

/-- Enumerated radix powers, as a literal list. -/
lemma powersenum_eq (r : Nat) :
    powersenum r = [(0, r ^ 4), (1, r ^ 3), (2, r ^ 2), (3, r ^ 1), (4, r ^ 0)] := rfl

/-- Literal form of an encoded quartet. -/
lemma encode_quartet_eq (a : List Nat) (n : Nat) :
    _encode_quartet a n =
      [a.getD (n / a.length ^ 4 % a.length) 0, a.getD (n / a.length ^ 3 % a.length) 0,
       a.getD (n / a.length ^ 2 % a.length) 0, a.getD (n / a.length ^ 1 % a.length) 0,
       a.getD (n / a.length ^ 0 % a.length) 0] := rfl

lemma chunkby4_cons {α : Type} (p : Option α) (b0 b1 b2 b3 : α) (rest : List α) :
    _chunkby 4 p (b0 :: b1 :: b2 :: b3 :: rest) =
      ([b0, b1, b2, b3], 0) :: _chunkby 4 p rest := rfl

lemma chunkby5_cons {α : Type} (p : Option α) (c0 c1 c2 c3 c4 : α) (rest : List α) :
    _chunkby 5 p (c0 :: c1 :: c2 :: c3 :: c4 :: rest) =
      ([c0, c1, c2, c3, c4], 0) :: _chunkby 5 p rest := rfl

lemma chunkby4_tail1 {α : Type} (pd b0 : α) :
    _chunkby 4 (some pd) [b0] = [([b0, pd, pd, pd], 3)] := rfl

lemma chunkby4_tail2 {α : Type} (pd b0 b1 : α) :
    _chunkby 4 (some pd) [b0, b1] = [([b0, b1, pd, pd], 2)] := rfl

lemma chunkby4_tail3 {α : Type} (pd b0 b1 b2 : α) :
    _chunkby 4 (some pd) [b0, b1, b2] = [([b0, b1, b2, pd], 1)] := rfl

lemma chunkby5_tail1 {α : Type} (pd c0 : α) :
    _chunkby 5 (some pd) [c0] = [([c0, pd, pd, pd, pd], 4)] := rfl

lemma chunkby5_tail2 {α : Type} (pd c0 c1 : α) :
    _chunkby 5 (some pd) [c0, c1] = [([c0, c1, pd, pd, pd], 3)] := rfl

lemma chunkby5_tail3 {α : Type} (pd c0 c1 c2 : α) :
    _chunkby 5 (some pd) [c0, c1, c2] = [([c0, c1, c2, pd, pd], 2)] := rfl

lemma chunkby5_tail4 {α : Type} (pd c0 c1 c2 c3 : α) :
    _chunkby 5 (some pd) [c0, c1, c2, c3] = [([c0, c1, c2, c3, pd], 1)] := rfl

/-- Encoding peels one full 4-byte group off the front. -/
lemma encode_cons4 (a : List Nat) (b0 b1 b2 b3 : Nat) (rest : List Nat) :
    Base8xCodec.encode ⟨a⟩ (b0 :: b1 :: b2 :: b3 :: rest) =
      _encode_quartet a (_get_num_by_seq_enc [b0, b1, b2, b3]) ++
        Base8xCodec.encode ⟨a⟩ rest := rfl

/-- Encoding a 1-byte remainder: 2 characters survive the trim. -/
lemma encode_tail1 (a : List Nat) (b0 : Nat) :
    Base8xCodec.encode ⟨a⟩ [b0] =
      [a.getD (_get_num_by_seq_enc [b0, 0, 0, 0] / a.length ^ 4 % a.length) 0,
       a.getD (_get_num_by_seq_enc [b0, 0, 0, 0] / a.length ^ 3 % a.length) 0] := rfl

/-- Encoding a 2-byte remainder: 3 characters survive the trim. -/
lemma encode_tail2 (a : List Nat) (b0 b1 : Nat) :
    Base8xCodec.encode ⟨a⟩ [b0, b1] =
      [a.getD (_get_num_by_seq_enc [b0, b1, 0, 0] / a.length ^ 4 % a.length) 0,
       a.getD (_get_num_by_seq_enc [b0, b1, 0, 0] / a.length ^ 3 % a.length) 0,
       a.getD (_get_num_by_seq_enc [b0, b1, 0, 0] / a.length ^ 2 % a.length) 0] := rfl

/-- Encoding a 3-byte remainder: 4 characters survive the trim. -/
lemma encode_tail3 (a : List Nat) (b0 b1 b2 : Nat) :
    Base8xCodec.encode ⟨a⟩ [b0, b1, b2] =
      [a.getD (_get_num_by_seq_enc [b0, b1, b2, 0] / a.length ^ 4 % a.length) 0,
       a.getD (_get_num_by_seq_enc [b0, b1, b2, 0] / a.length ^ 3 % a.length) 0,
       a.getD (_get_num_by_seq_enc [b0, b1, b2, 0] / a.length ^ 2 % a.length) 0,
       a.getD (_get_num_by_seq_enc [b0, b1, b2, 0] / a.length ^ 1 % a.length) 0] := rfl

/-- Decoding is chunking followed by chunkwise conversion. -/
lemma decode_def (c : Base8xCodec) (text : List Nat) :
    c.decode text =
      c.decode_chunks (_chunkby 5 (some (c.alphabet.getLast?.getD 0)) text) := rfl

lemma decode_chunks_nil (c : Base8xCodec) : c.decode_chunks [] = .ok [] := rfl

lemma decode_chunks_cons (c : Base8xCodec) (g : List Nat) (np : Nat)
    (rest : List (List Nat × Nat)) :
    c.decode_chunks ((g, np) :: rest) =
      match _get_num_by_seq_dec c.alphabet g with
      | .error e => .error e
      | .ok val =>
        match c.decode_chunks rest with
        | .error e => .error e
        | .ok tail => .ok ((_decode_quintet val).take (4 - np) ++ tail) := rfl

lemma take4_quad {α : Type} (x y z w : α) : List.take 4 [x, y, z, w] = [x, y, z, w] := rfl

lemma take3_quad {α : Type} (x y z w : α) : List.take 3 [x, y, z, w] = [x, y, z] := rfl

lemma take2_quad {α : Type} (x y z w : α) : List.take 2 [x, y, z, w] = [x, y] := rfl

lemma take1_quad {α : Type} (x y z w : α) : List.take 1 [x, y, z, w] = [x] := rfl

/-! Decoding a group of in-alphabet characters. -/

/-- Value of a 5-character group whose characters sit at alphabet indices
`p0..p4`, when that value passes the `_MAXVAL` check. -/
lemma get_num_digits_ok (a : List Nat) (hnd : a.Nodup)
    (p0 p1 p2 p3 p4 : Nat) (h0 : p0 < a.length) (h1 : p1 < a.length)
    (h2 : p2 < a.length) (h3 : p3 < a.length) (h4 : p4 < a.length)
    (hv : p0 * a.length ^ 4 + p1 * a.length ^ 3 + p2 * a.length ^ 2 +
        p3 * a.length ^ 1 + p4 * a.length ^ 0 ≤ _MAXVAL) :
    _get_num_by_seq_dec a
        [a.getD p0 0, a.getD p1 0, a.getD p2 0, a.getD p3 0, a.getD p4 0] =
      .ok (p0 * a.length ^ 4 + p1 * a.length ^ 3 + p2 * a.length ^ 2 +
        p3 * a.length ^ 1 + p4 * a.length ^ 0) := by
  have e0 := ordLookup_getD a hnd p0 h0
  have e1 := ordLookup_getD a hnd p1 h1
  have e2 := ordLookup_getD a hnd p2 h2
  have e3 := ordLookup_getD a hnd p3 h3
  have e4 := ordLookup_getD a hnd p4 h4
  unfold _get_num_by_seq_dec
  rw [powersenum_eq]
  simp only [get_num_by_seq_dec_aux, List.getD_cons_zero, List.getD_cons_succ,
    e0, e1, e2, e3, e4]
  have hacc : 0 + p0 * a.length ^ 4 + p1 * a.length ^ 3 + p2 * a.length ^ 2 +
      p3 * a.length ^ 1 + p4 * a.length ^ 0 =
      p0 * a.length ^ 4 + p1 * a.length ^ 3 + p2 * a.length ^ 2 +
      p3 * a.length ^ 1 + p4 * a.length ^ 0 := by ring
  rw [hacc, if_neg (Nat.not_lt.mpr hv)]

/-- Decoding an encoded quartet recovers its 32-bit value. -/
lemma get_num_encode_quartet (a : List Nat) (hnd : a.Nodup) (h85 : 85 ≤ a.length)
    (n : Nat) (hn : n ≤ _MAXVAL) :
    _get_num_by_seq_dec a (_encode_quartet a n) = .ok n := by
  have hL : 0 < a.length := by omega
  have hn' : n ≤ 2 ^ 32 - 1 := hn
  have hn5 : n < a.length ^ 5 := lt_r_pow5 a.length n h85 (by omega)
  have hsum := digit_split0 a.length n hn5
  rw [encode_quartet_eq,
    get_num_digits_ok a hnd _ _ _ _ _ (Nat.mod_lt _ hL) (Nat.mod_lt _ hL)
      (Nat.mod_lt _ hL) (Nat.mod_lt _ hL) (Nat.mod_lt _ hL)
      (by rw [hsum]; exact hn), hsum]

/-! Arithmetic of the padded tail groups.  A remainder of `k` bytes is
padded with `4 - k` zero bytes before encoding; after the trim, decoding
pads the surviving `k + 1` characters with `4 - k` copies of the top
alphabet character.  The resulting group value stays below `2 ^ 32` and its
top `k` bytes are the original remainder bytes. -/

/-- Value and byte recovery for a 1-byte remainder (three padded digits). -/
lemma tail1_val (L b0 : Nat) (h85 : 85 ≤ L) (h95 : L ≤ 95) (hb0 : b0 < 256) :
    b0 * 16777216 / L ^ 4 % L * L ^ 4 + b0 * 16777216 / L ^ 3 % L * L ^ 3 +
      (L - 1) * L ^ 2 + (L - 1) * L ^ 1 + (L - 1) * L ^ 0 ≤ 2 ^ 32 - 1 ∧
    (b0 * 16777216 / L ^ 4 % L * L ^ 4 + b0 * 16777216 / L ^ 3 % L * L ^ 3 +
      (L - 1) * L ^ 2 + (L - 1) * L ^ 1 + (L - 1) * L ^ 0) / 2 ^ 24 % 256 = b0 := by
  have hL : 0 < L := by omega
  have hn5 : b0 * 16777216 < L ^ 5 := lt_r_pow5 L _ h85 (by omega)
  have hsplit := digit_split3 L (b0 * 16777216) hn5
  have hgeom := geom3 L (by omega)
  have hq : b0 * 16777216 % L ^ 3 < L ^ 3 := Nat.mod_lt _ (Nat.pos_pow_of_pos 3 hL)
  have hR : L ^ 3 ≤ 16777216 := by
    have h := Nat.pow_le_pow_left h95 3
    norm_num at h
    omega
  obtain ⟨A, hA⟩ : ∃ x, b0 * 16777216 / L ^ 4 % L * L ^ 4 +
      b0 * 16777216 / L ^ 3 % L * L ^ 3 = x := ⟨_, rfl⟩
  rw [hA] at hsplit ⊢
  obtain ⟨g2, hg2⟩ : ∃ x, (L - 1) * L ^ 2 = x := ⟨_, rfl⟩
  obtain ⟨g1, hg1⟩ : ∃ x, (L - 1) * L ^ 1 = x := ⟨_, rfl⟩
  obtain ⟨g0, hg0⟩ : ∃ x, (L - 1) * L ^ 0 = x := ⟨_, rfl⟩
  rw [hg2, hg1, hg0] at hgeom ⊢
  obtain ⟨R, hRR⟩ : ∃ x, L ^ 3 = x := ⟨_, rfl⟩
  rw [hRR] at hgeom hq hR
  obtain ⟨q, hqq⟩ : ∃ x, b0 * 16777216 % R = x := ⟨_, rfl⟩
  rw [hRR, hqq] at hsplit
  rw [hqq] at hq
  constructor <;> omega

/-- Value and byte recovery for a 2-byte remainder (two padded digits). -/
lemma tail2_val (L b0 b1 : Nat) (h85 : 85 ≤ L) (h95 : L ≤ 95)
    (hb0 : b0 < 256) (hb1 : b1 < 256) :
    (b0 * 16777216 + b1 * 65536) / L ^ 4 % L * L ^ 4 +
      (b0 * 16777216 + b1 * 65536) / L ^ 3 % L * L ^ 3 +
      (b0 * 16777216 + b1 * 65536) / L ^ 2 % L * L ^ 2 +
      (L - 1) * L ^ 1 + (L - 1) * L ^ 0 ≤ 2 ^ 32 - 1 ∧
    ((b0 * 16777216 + b1 * 65536) / L ^ 4 % L * L ^ 4 +
      (b0 * 16777216 + b1 * 65536) / L ^ 3 % L * L ^ 3 +
      (b0 * 16777216 + b1 * 65536) / L ^ 2 % L * L ^ 2 +
      (L - 1) * L ^ 1 + (L - 1) * L ^ 0) / 2 ^ 24 % 256 = b0 ∧
    ((b0 * 16777216 + b1 * 65536) / L ^ 4 % L * L ^ 4 +
      (b0 * 16777216 + b1 * 65536) / L ^ 3 % L * L ^ 3 +
      (b0 * 16777216 + b1 * 65536) / L ^ 2 % L * L ^ 2 +
      (L - 1) * L ^ 1 + (L - 1) * L ^ 0) / 2 ^ 16 % 256 = b1 := by
  have hL : 0 < L := by omega
  have hn5 : b0 * 16777216 + b1 * 65536 < L ^ 5 := lt_r_pow5 L _ h85 (by omega)
  have hsplit := digit_split2 L (b0 * 16777216 + b1 * 65536) hn5
  have hgeom := geom2 L (by omega)
  have hq : (b0 * 16777216 + b1 * 65536) % L ^ 2 < L ^ 2 :=
    Nat.mod_lt _ (Nat.pos_pow_of_pos 2 hL)
  have hR : L ^ 2 ≤ 65536 := by
    have h := Nat.pow_le_pow_left h95 2
    norm_num at h
    omega
  obtain ⟨A, hA⟩ : ∃ x, (b0 * 16777216 + b1 * 65536) / L ^ 4 % L * L ^ 4 +
      (b0 * 16777216 + b1 * 65536) / L ^ 3 % L * L ^ 3 +
      (b0 * 16777216 + b1 * 65536) / L ^ 2 % L * L ^ 2 = x := ⟨_, rfl⟩
  rw [hA] at hsplit ⊢
  obtain ⟨g1, hg1⟩ : ∃ x, (L - 1) * L ^ 1 = x := ⟨_, rfl⟩
  obtain ⟨g0, hg0⟩ : ∃ x, (L - 1) * L ^ 0 = x := ⟨_, rfl⟩
  rw [hg1, hg0] at hgeom ⊢
  obtain ⟨R, hRR⟩ : ∃ x, L ^ 2 = x := ⟨_, rfl⟩
  rw [hRR] at hgeom hq hR
  obtain ⟨q, hqq⟩ : ∃ x, (b0 * 16777216 + b1 * 65536) % R = x := ⟨_, rfl⟩
  rw [hRR, hqq] at hsplit
  rw [hqq] at hq
  refine ⟨by omega, by omega, by omega⟩

/-- Value and byte recovery for a 3-byte remainder (one padded digit). -/
lemma tail3_val (L b0 b1 b2 : Nat) (h85 : 85 ≤ L) (h95 : L ≤ 95)
    (hb0 : b0 < 256) (hb1 : b1 < 256) (hb2 : b2 < 256) :
    (b0 * 16777216 + b1 * 65536 + b2 * 256) / L ^ 4 % L * L ^ 4 +
      (b0 * 16777216 + b1 * 65536 + b2 * 256) / L ^ 3 % L * L ^ 3 +
      (b0 * 16777216 + b1 * 65536 + b2 * 256) / L ^ 2 % L * L ^ 2 +
      (b0 * 16777216 + b1 * 65536 + b2 * 256) / L ^ 1 % L * L ^ 1 +
      (L - 1) * L ^ 0 ≤ 2 ^ 32 - 1 ∧
    ((b0 * 16777216 + b1 * 65536 + b2 * 256) / L ^ 4 % L * L ^ 4 +
      (b0 * 16777216 + b1 * 65536 + b2 * 256) / L ^ 3 % L * L ^ 3 +
      (b0 * 16777216 + b1 * 65536 + b2 * 256) / L ^ 2 % L * L ^ 2 +
      (b0 * 16777216 + b1 * 65536 + b2 * 256) / L ^ 1 % L * L ^ 1 +
      (L - 1) * L ^ 0) / 2 ^ 24 % 256 = b0 ∧
    ((b0 * 16777216 + b1 * 65536 + b2 * 256) / L ^ 4 % L * L ^ 4 +
      (b0 * 16777216 + b1 * 65536 + b2 * 256) / L ^ 3 % L * L ^ 3 +
      (b0 * 16777216 + b1 * 65536 + b2 * 256) / L ^ 2 % L * L ^ 2 +
      (b0 * 16777216 + b1 * 65536 + b2 * 256) / L ^ 1 % L * L ^ 1 +
      (L - 1) * L ^ 0) / 2 ^ 16 % 256 = b1 ∧
    ((b0 * 16777216 + b1 * 65536 + b2 * 256) / L ^ 4 % L * L ^ 4 +
      (b0 * 16777216 + b1 * 65536 + b2 * 256) / L ^ 3 % L * L ^ 3 +
      (b0 * 16777216 + b1 * 65536 + b2 * 256) / L ^ 2 % L * L ^ 2 +
      (b0 * 16777216 + b1 * 65536 + b2 * 256) / L ^ 1 % L * L ^ 1 +
      (L - 1) * L ^ 0) / 2 ^ 8 % 256 = b2 := by
  have hL : 0 < L := by omega
  have hn5 : b0 * 16777216 + b1 * 65536 + b2 * 256 < L ^ 5 :=
    lt_r_pow5 L _ h85 (by omega)
  have hsplit := digit_split1 L (b0 * 16777216 + b1 * 65536 + b2 * 256) hn5
  have hgeom := geom1 L (by omega)
  have hq : (b0 * 16777216 + b1 * 65536 + b2 * 256) % L ^ 1 < L ^ 1 :=
    Nat.mod_lt _ (Nat.pos_pow_of_pos 1 hL)
  have hR : L ^ 1 ≤ 256 := by
    rw [pow_one]
    omega
  obtain ⟨A, hA⟩ : ∃ x, (b0 * 16777216 + b1 * 65536 + b2 * 256) / L ^ 4 % L * L ^ 4 +
      (b0 * 16777216 + b1 * 65536 + b2 * 256) / L ^ 3 % L * L ^ 3 +
      (b0 * 16777216 + b1 * 65536 + b2 * 256) / L ^ 2 % L * L ^ 2 +
      (b0 * 16777216 + b1 * 65536 + b2 * 256) / L ^ 1 % L * L ^ 1 = x := ⟨_, rfl⟩
  rw [hA] at hsplit ⊢
  obtain ⟨g0, hg0⟩ : ∃ x, (L - 1) * L ^ 0 = x := ⟨_, rfl⟩
  rw [hg0] at hgeom ⊢
  obtain ⟨R, hRR⟩ : ∃ x, L ^ 1 = x := ⟨_, rfl⟩
  rw [hRR] at hgeom hq hR
  obtain ⟨q, hqq⟩ : ∃ x, (b0 * 16777216 + b1 * 65536 + b2 * 256) % R = x := ⟨_, rfl⟩
  rw [hRR, hqq] at hsplit
  rw [hqq] at hq
  refine ⟨by omega, by omega, by omega, by omega⟩

/-! Round-trip composition. -/

lemma decode_quintet_take1 (v : Nat) :
    (_decode_quintet v).take 1 = [v / 2 ^ 24 % 256] := rfl

lemma decode_quintet_take2 (v : Nat) :
    (_decode_quintet v).take 2 = [v / 2 ^ 24 % 256, v / 2 ^ 16 % 256] := rfl

lemma decode_quintet_take3 (v : Nat) :
    (_decode_quintet v).take 3 =
      [v / 2 ^ 24 % 256, v / 2 ^ 16 % 256, v / 2 ^ 8 % 256] := rfl

lemma decode_quintet_take4 (v : Nat) :
    (_decode_quintet v).take 4 =
      [v / 2 ^ 24 % 256, v / 2 ^ 16 % 256, v / 2 ^ 8 % 256, v % 256] := rfl

/-- One successfully converted chunk ahead of successfully decoded chunks. -/
lemma decode_chunks_cons_ok_ok (c : Base8xCodec) (g : List Nat) (np v : Nat)
    (rest : List (List Nat × Nat)) (tail : List Nat)
    (hg : _get_num_by_seq_dec c.alphabet g = .ok v)
    (hrest : c.decode_chunks rest = .ok tail) :
    c.decode_chunks ((g, np) :: rest) =
      .ok ((_decode_quintet v).take (4 - np) ++ tail) := by
  rw [decode_chunks_cons, hg, hrest]

/-- A single successfully converted chunk. -/
lemma decode_chunks_single_ok (c : Base8xCodec) (g : List Nat) (np v : Nat)
    (hg : _get_num_by_seq_dec c.alphabet g = .ok v) :
    c.decode_chunks [(g, np)] = .ok ((_decode_quintet v).take (4 - np) ++ []) := by
  rw [decode_chunks_cons, hg]
  rfl

/-- Round trip for a 1-byte input. -/
lemma roundtrip_tail1 (a : List Nat) (hnd : a.Nodup) (h85 : 85 ≤ a.length)
    (h95 : a.length ≤ 95) (b0 : Nat) (hb0 : b0 < 256) :
    Base8xCodec.decode ⟨a⟩ (Base8xCodec.encode ⟨a⟩ [b0]) = .ok [b0] := by
  have hL : 0 < a.length := by omega
  have hane : a ≠ [] := by
    intro he
    rw [he] at h85
    simp at h85
  have hlt : a.length - 1 < a.length := by omega
  have hn : _get_num_by_seq_enc [b0, 0, 0, 0] = b0 * 16777216 := by
    unfold _get_num_by_seq_enc
    simp [List.foldl]
    ring
  obtain ⟨hv, hby0⟩ := tail1_val a.length b0 h85 h95 hb0
  rw [encode_tail1, hn, decode_def, alphabet_mk, getLast?_getD_eq a hane,
    chunkby5_tail2,
    decode_chunks_single_ok ⟨a⟩ _ 3 _
      (by
        rw [alphabet_mk]
        exact get_num_digits_ok a hnd _ _ _ _ _ (Nat.mod_lt _ hL) (Nat.mod_lt _ hL)
          hlt hlt hlt hv)]
  rw [show (4 : Nat) - 3 = 1 from rfl, decode_quintet_take1, List.append_nil, hby0]

/-- Round trip for a 2-byte input. -/
lemma roundtrip_tail2 (a : List Nat) (hnd : a.Nodup) (h85 : 85 ≤ a.length)
    (h95 : a.length ≤ 95) (b0 b1 : Nat) (hb0 : b0 < 256) (hb1 : b1 < 256) :
    Base8xCodec.decode ⟨a⟩ (Base8xCodec.encode ⟨a⟩ [b0, b1]) = .ok [b0, b1] := by
  have hL : 0 < a.length := by omega
  have hane : a ≠ [] := by
    intro he
    rw [he] at h85
    simp at h85
  have hlt : a.length - 1 < a.length := by omega
  have hn : _get_num_by_seq_enc [b0, b1, 0, 0] = b0 * 16777216 + b1 * 65536 := by
    unfold _get_num_by_seq_enc
    simp [List.foldl]
    ring
  obtain ⟨hv, hby0, hby1⟩ := tail2_val a.length b0 b1 h85 h95 hb0 hb1
  rw [encode_tail2, hn, decode_def, alphabet_mk, getLast?_getD_eq a hane,
    chunkby5_tail3,
    decode_chunks_single_ok ⟨a⟩ _ 2 _
      (by
        rw [alphabet_mk]
        exact get_num_digits_ok a hnd _ _ _ _ _ (Nat.mod_lt _ hL) (Nat.mod_lt _ hL)
          (Nat.mod_lt _ hL) hlt hlt hv)]
  rw [show (4 : Nat) - 2 = 2 from rfl, decode_quintet_take2, List.append_nil, hby0, hby1]

/-- Round trip for a 3-byte input. -/
lemma roundtrip_tail3 (a : List Nat) (hnd : a.Nodup) (h85 : 85 ≤ a.length)
    (h95 : a.length ≤ 95) (b0 b1 b2 : Nat) (hb0 : b0 < 256) (hb1 : b1 < 256)
    (hb2 : b2 < 256) :
    Base8xCodec.decode ⟨a⟩ (Base8xCodec.encode ⟨a⟩ [b0, b1, b2]) = .ok [b0, b1, b2] := by
  have hL : 0 < a.length := by omega
  have hane : a ≠ [] := by
    intro he
    rw [he] at h85
    simp at h85
  have hlt : a.length - 1 < a.length := by omega
  have hn : _get_num_by_seq_enc [b0, b1, b2, 0] =
      b0 * 16777216 + b1 * 65536 + b2 * 256 := by
    unfold _get_num_by_seq_enc
    simp [List.foldl]
    ring
  obtain ⟨hv, hby0, hby1, hby2⟩ := tail3_val a.length b0 b1 b2 h85 h95 hb0 hb1 hb2
  rw [encode_tail3, hn, decode_def, alphabet_mk, getLast?_getD_eq a hane,
    chunkby5_tail4,
    decode_chunks_single_ok ⟨a⟩ _ 1 _
      (by
        rw [alphabet_mk]
        exact get_num_digits_ok a hnd _ _ _ _ _ (Nat.mod_lt _ hL) (Nat.mod_lt _ hL)
          (Nat.mod_lt _ hL) (Nat.mod_lt _ hL) hlt hv)]
  rw [show (4 : Nat) - 1 = 3 from rfl, decode_quintet_take3, List.append_nil,
    hby0, hby1, hby2]

/-- Round trip peels one full 4-byte group. -/
lemma roundtrip_cons4 (a : List Nat) (hnd : a.Nodup) (h85 : 85 ≤ a.length)
    (b0 b1 b2 b3 : Nat) (hb0 : b0 < 256) (hb1 : b1 < 256) (hb2 : b2 < 256)
    (hb3 : b3 < 256) (rest : List Nat)
    (hrest : Base8xCodec.decode ⟨a⟩ (Base8xCodec.encode ⟨a⟩ rest) = .ok rest) :
    Base8xCodec.decode ⟨a⟩ (Base8xCodec.encode ⟨a⟩ (b0 :: b1 :: b2 :: b3 :: rest)) =
      .ok (b0 :: b1 :: b2 :: b3 :: rest) := by
  have hn : _get_num_by_seq_enc [b0, b1, b2, b3] =
      b0 * 16777216 + b1 * 65536 + b2 * 256 + b3 := by
    unfold _get_num_by_seq_enc
    simp [List.foldl]
    ring
  have hm : b0 * 16777216 + b1 * 65536 + b2 * 256 + b3 ≤ _MAXVAL := by
    show _ ≤ 2 ^ 32 - 1
    omega
  have hg := get_num_encode_quartet a hnd h85
    (b0 * 16777216 + b1 * 65536 + b2 * 256 + b3) hm
  rw [encode_quartet_eq] at hg
  have hrest' : Base8xCodec.decode_chunks ⟨a⟩
      (_chunkby 5 (some ((Base8xCodec.alphabet ⟨a⟩).getLast?.getD 0))
        (Base8xCodec.encode ⟨a⟩ rest)) = .ok rest := hrest
  rw [encode_cons4, hn, encode_quartet_eq]
  simp only [List.cons_append, List.nil_append]
  rw [decode_def, chunkby5_cons,
    decode_chunks_cons_ok_ok ⟨a⟩ _ 0 _ _ _ (by rw [alphabet_mk]; exact hg) hrest']
  rw [show (4 : Nat) - 0 = 4 from rfl, decode_quintet_take4]
  simp only [List.cons_append, List.nil_append, Except.ok.injEq, List.cons.injEq]
  refine ⟨by omega, by omega, by omega, by omega, trivial⟩

/-- Round trip for any byte list, by strong induction in 4-byte steps. -/
lemma roundtrip_aux (a : List Nat) (hnd : a.Nodup) (h85 : 85 ≤ a.length)
    (h95 : a.length ≤ 95) :
    ∀ (fuel : Nat) (data : List Nat), data.length ≤ fuel →
      (∀ b ∈ data, b < 256) →
      Base8xCodec.decode ⟨a⟩ (Base8xCodec.encode ⟨a⟩ data) = .ok data := by
  intro fuel
  induction fuel with
  | zero =>
      intro data hlen _
      have hd : data = [] := List.eq_nil_of_length_eq_zero (by omega)
      subst hd
      rfl
  | succ k ih =>
      intro data hlen hb
      rcases data with _ | ⟨b0, _ | ⟨b1, _ | ⟨b2, _ | ⟨b3, rest⟩⟩⟩⟩
      · rfl
      · exact roundtrip_tail1 a hnd h85 h95 b0 (hb b0 (by simp))
      · exact roundtrip_tail2 a hnd h85 h95 b0 b1 (hb b0 (by simp)) (hb b1 (by simp))
      · exact roundtrip_tail3 a hnd h85 h95 b0 b1 b2 (hb b0 (by simp))
          (hb b1 (by simp)) (hb b2 (by simp))
      · exact roundtrip_cons4 a hnd h85 b0 b1 b2 b3 (hb b0 (by simp))
          (hb b1 (by simp)) (hb b2 (by simp)) (hb b3 (by simp)) rest
          (ih rest (by simp at hlen; omega)
            (fun b hbm => hb b (by simp [hbm])))

/-! Output length of encoding. -/

/-- Length of the encoded text, by 4-byte steps. -/
lemma encode_length_aux (a : List Nat) :
    ∀ (fuel : Nat) (data : List Nat), data.length ≤ fuel →
      (Base8xCodec.encode ⟨a⟩ data).length =
        5 * (data.length / 4) +
          (if data.length % 4 = 0 then 0 else data.length % 4 + 1) := by
  intro fuel
  induction fuel with
  | zero =>
      intro data hlen
      have hd : data = [] := List.eq_nil_of_length_eq_zero (by omega)
      subst hd
      rfl
  | succ k ih =>
      intro data hlen
      rcases data with _ | ⟨b0, _ | ⟨b1, _ | ⟨b2, _ | ⟨b3, rest⟩⟩⟩⟩
      · rfl
      · rw [encode_tail1]
        simp
      · rw [encode_tail2]
        simp
      · rw [encode_tail3]
        simp
      · rw [encode_cons4, List.length_append,
          show (_encode_quartet a (_get_num_by_seq_enc [b0, b1, b2, b3])).length = 5
            from rfl,
          ih rest (by simp at hlen; omega)]
        simp only [List.length_cons]
        have h4 : rest.length + 1 + 1 + 1 + 1 = rest.length + 4 := by omega
        rw [h4]
        by_cases hmod : rest.length % 4 = 0
        · rw [if_pos hmod, if_pos (by omega)]
          omega
        · rw [if_neg hmod, if_neg (by omega : ¬(rest.length + 4) % 4 = 0)]
          omega

/-! Membership of encoded characters in the alphabet. -/

/-- Every character of an encoded quartet belongs to the alphabet: the digit
index `(num // offset) % radix` is below `radix = len(alphabet)`. -/
lemma encode_quartet_mem (a : List Nat) (hL : 0 < a.length) (n x : Nat)
    (hx : x ∈ _encode_quartet a n) : x ∈ a := by
  rw [encode_quartet_eq] at hx
  simp only [List.mem_cons, List.not_mem_nil, or_false] at hx
  rcases hx with rfl | rfl | rfl | rfl | rfl <;>
    exact getD_mem a _ (Nat.mod_lt _ hL)

/-- Every character of an encoded text belongs to the alphabet. -/
lemma encode_mem_aux (a : List Nat) (hL : 0 < a.length) :
    ∀ (fuel : Nat) (data : List Nat), data.length ≤ fuel →
      ∀ x ∈ Base8xCodec.encode ⟨a⟩ data, x ∈ a := by
  intro fuel
  induction fuel with
  | zero =>
      intro data hlen x hx
      have hd : data = [] := List.eq_nil_of_length_eq_zero (by omega)
      subst hd
      simp [Base8xCodec.encode, _chunkby, chunkbyAux] at hx
  | succ k ih =>
      intro data hlen x hx
      rcases data with _ | ⟨b0, _ | ⟨b1, _ | ⟨b2, _ | ⟨b3, rest⟩⟩⟩⟩
      · simp [Base8xCodec.encode, _chunkby, chunkbyAux] at hx
      · rw [encode_tail1] at hx
        simp only [List.mem_cons, List.not_mem_nil, or_false] at hx
        rcases hx with rfl | rfl <;> exact getD_mem a _ (Nat.mod_lt _ hL)
      · rw [encode_tail2] at hx
        simp only [List.mem_cons, List.not_mem_nil, or_false] at hx
        rcases hx with rfl | rfl | rfl <;> exact getD_mem a _ (Nat.mod_lt _ hL)
      · rw [encode_tail3] at hx
        simp only [List.mem_cons, List.not_mem_nil, or_false] at hx
        rcases hx with rfl | rfl | rfl | rfl <;> exact getD_mem a _ (Nat.mod_lt _ hL)
      · rw [encode_cons4] at hx
        rcases List.mem_append.mp hx with h | h
        · exact encode_quartet_mem a hL _ x h
        · exact ih rest (by simp at hlen; omega) x h

/-! Claim theorems. -/

/-- C1: for every validly constructed codec and every byte sequence (all
entries below 256) of any length, decoding the encoding returns exactly the
original bytes; in particular decoding text produced by `encode` of the same
codec never fails, neither with an illegal-sequence nor with an
illegal-character error. -/
theorem c1_roundtrip (a : List Nat) (c : Base8xCodec)
    (hc : Base8xCodec.mk? a = some c) (data : List Nat)
    (hdata : ∀ b ∈ data, b < 256) :
    c.decode (c.encode data) = .ok data := by
  obtain ⟨halph, hnd, h85, h95, -⟩ := mk?_sound a c hc
  obtain ⟨l⟩ := c
  rw [alphabet_mk] at halph
  subst halph
  exact roundtrip_aux _ hnd h85 h95 data.length data le_rfl hdata

/-- Witness for C1 at the predefined Z85 codec and a concrete byte list. -/
theorem c1_roundtrip_witness :
    z85codec.decode (z85codec.encode [134, 79, 210, 111, 181]) =
      .ok [134, 79, 210, 111, 181] :=
  c1_roundtrip z85alphabet z85codec (by decide) [134, 79, 210, 111, 181] (by decide)

/-- C2: the encoded text has `5 * (full 4-byte groups)` characters plus, for
a non-empty remainder of `j` bytes (`j = len % 4`, pad count `4 - j`),
exactly `5 - (4 - j) = j + 1` trailing characters — 2, 3 or 4 characters for
a remainder of 1, 2 or 3 bytes; an empty input encodes to empty text. -/
theorem c2_encode_length :
    (∀ (c : Base8xCodec) (data : List Nat),
      (c.encode data).length =
        5 * (data.length / 4) +
          (if data.length % 4 = 0 then 0 else data.length % 4 + 1)) ∧
    (∀ c : Base8xCodec, c.encode [] = []) := by
  constructor
  · intro c data
    obtain ⟨a⟩ := c
    exact encode_length_aux a data.length data le_rfl
  · intro c
    rfl

/-- C3: codec construction succeeds exactly on alphabets of 85 to 95 unique
printable characters (code points 32..126): completeness and soundness of
validation, acceptance of the 85-character candidate 33..117, rejection of
sizes 84 (and, via the soundness bound, anything outside 85..95, hence also
96), rejection of the non-printable code points 31 and 127, and rejection of
a duplicated character even though the candidate still holds 85 unique
characters. -/
theorem c3_alphabet_acceptance :
    (∀ a : List Nat, a.Nodup → (∀ x ∈ a, 32 ≤ x ∧ x ≤ 126) →
      85 ≤ a.length → a.length ≤ 95 → Base8xCodec.mk? a = some ⟨a⟩) ∧
    (∀ (a : List Nat) (c : Base8xCodec), Base8xCodec.mk? a = some c →
      a.Nodup ∧ (∀ x ∈ a, 32 ≤ x ∧ x ≤ 126) ∧ 85 ≤ a.length ∧ a.length ≤ 95) ∧
    Base8xCodec.mk? (List.range' 33 85) = some ⟨List.range' 33 85⟩ ∧
    Base8xCodec.mk? (List.range' 33 84) = none ∧
    Base8xCodec.mk? (List.range' 33 85 ++ [31]) = none ∧
    Base8xCodec.mk? (List.range' 33 85 ++ [127]) = none ∧
    Base8xCodec.mk? (List.range' 33 85 ++ [33]) = none := by
  refine ⟨mk?_complete, ?_, by decide, by decide, by decide, by decide, by decide⟩
  intro a c hc
  obtain ⟨-, hnd, h85, h95, hp⟩ := mk?_sound a c hc
  exact ⟨hnd, hp, h85, h95⟩

/-- Witness for C3 at the Adobe-85-style alphabet. -/
theorem c3_alphabet_acceptance_witness :
    adobe85alphabet.Nodup ∧ 85 ≤ adobe85alphabet.length ∧
      adobe85alphabet.length ≤ 95 ∧
      Base8xCodec.mk? adobe85alphabet = some adobe85codec :=
  ⟨(c3_alphabet_acceptance.2.1 adobe85alphabet adobe85codec (by rfl)).1,
   (c3_alphabet_acceptance.2.1 adobe85alphabet adobe85codec (by rfl)).2.2.1,
   (c3_alphabet_acceptance.2.1 adobe85alphabet adobe85codec (by rfl)).2.2.2,
   c3_alphabet_acceptance.1 adobe85alphabet (by decide) (by decide) (by decide)
     (by decide)⟩

/-- C4: for the Adobe-85-style codec over code points 33..117, decoding the
text "s8W-$" (code points [115, 56, 87, 45, 36]) fails with the
illegal-sequence error carrying the raw 5-character group and its
accumulated value 0x100000002 = 4294967298, which exceeds 2^32 - 1. -/
theorem c4_illegal_sequence :
    Base8xCodec.mk? adobe85alphabet = some adobe85codec ∧
    adobe85codec.decode [115, 56, 87, 45, 36] =
      .error (.illegalSequence [115, 56, 87, 45, 36] 4294967298) ∧
    2 ^ 32 - 1 < 4294967298 := by
  refine ⟨by rfl, by rfl, by norm_num⟩

/-- C5 counterexample: the claim counts "21 symbols" after the digits and
letters of the Z85 alphabet, but the trailing symbol block of the predefined
codec has 23 characters, not 21. -/
theorem c5_cex : ¬((z85codec.alphabet.drop 62).length = 21) := by decide

/-- C5 amended: the predefined Z85-compatible codec's alphabet is exactly,
in order, the digits 0-9, lowercase a-z, uppercase A-Z, and then the 23 (not
21) symbols . - : + = ^ ! / * ? & < > ( ) [ ] brace brace @ % $ #, for a
total of 85 symbols. -/
theorem c5_amended :
    z85codec.alphabet =
      List.range' 48 10 ++ List.range' 97 26 ++ List.range' 65 26 ++
        [46, 45, 58, 43, 61, 94, 33, 47, 42, 63, 38, 60, 62, 40, 41, 91, 93,
         123, 125, 64, 37, 36, 35] ∧
    z85codec.alphabet.length = 85 ∧ (z85codec.alphabet.drop 62).length = 23 := by
  refine ⟨by decide, by decide, by decide⟩

/-- C6: the predefined Z85-compatible codec encodes the 8-byte ZeroMQ test
vector to the text "HelloWorld". -/
theorem c6_hello_world :
    Base8xCodec.mk? z85alphabet = some z85codec ∧
    z85codec.encode [0x86, 0x4f, 0xd2, 0x6f, 0xb5, 0x59, 0xf7, 0x5b] =
      (("HelloWorld").data.map Char.toNat) := by
  refine ⟨by decide, by rfl⟩

/-- C7: the Adobe-85-style codec over code points 33..117 encodes the 4-byte
group ff ff ff ff to "s8W-!" (code points [115, 56, 87, 45, 33]); each output
symbol is `alphabet[(V // P) % radix]` for the radix powers P from most
significant to least, as `_encode_quartet` computes. -/
theorem c7_adobe_vector :
    Base8xCodec.mk? adobe85alphabet = some adobe85codec ∧
    adobe85codec.encode [255, 255, 255, 255] = (("s8W-!").data.map Char.toNat) ∧
    adobe85codec.encode [255, 255, 255, 255] = [115, 56, 87, 45, 33] := by
  refine ⟨by rfl, by rfl, by rfl⟩

/-- C9: every character of any encoded text is a member of the codec's
alphabet — the digit index `(V // P) % radix` is always below `radix`, so
alphabet indexing never goes out of range and encoding is total. -/
theorem c9_encode_chars_in_alphabet (a : List Nat) (c : Base8xCodec)
    (hc : Base8xCodec.mk? a = some c) (data : List Nat) (x : Nat)
    (hx : x ∈ c.encode data) : x ∈ a := by
  obtain ⟨halph, -, h85, -, -⟩ := mk?_sound a c hc
  obtain ⟨l⟩ := c
  rw [alphabet_mk] at halph
  subst halph
  exact encode_mem_aux _ (by omega) data.length data le_rfl x hx

/-- Witness for C9: the first character of the Z85 encoding of a single zero
byte is in the Z85 alphabet. -/
theorem c9_encode_chars_in_alphabet_witness : (48 : Nat) ∈ z85alphabet :=
  c9_encode_chars_in_alphabet z85alphabet z85codec (by decide) [0] 48 (by decide)

/-! Decoding pipelines over split inputs. -/

/-- A successful lookup returns an in-range index holding the character. -/
lemma ordLookup_some (l : List Nat) (c p : Nat) (h : ordLookup l c = some p) :
    p < l.length ∧ l.getD p 0 = c := by
  induction l generalizing p with
  | nil => cases h
  | cons a rest ih =>
      by_cases he : a = c
      · simp only [ordLookup, if_pos he] at h
        cases h
        exact ⟨by simp, he⟩
      · simp only [ordLookup, if_neg he] at h
        cases hr : ordLookup rest c with
        | none => rw [hr] at h; cases h
        | some q =>
            rw [hr] at h
            simp only [Option.map_some'] at h
            cases h
            obtain ⟨hq, hg⟩ := ih q hr
            exact ⟨by simp; omega, hg⟩

/-- Chunking distributes over an append at a group boundary. -/
lemma chunkby5_append {α : Type} (p : Option α) :
    ∀ (fuel : Nat) (t0 t1 : List α), t0.length ≤ fuel → t0.length % 5 = 0 →
      _chunkby 5 p (t0 ++ t1) = _chunkby 5 p t0 ++ _chunkby 5 p t1 := by
  intro fuel
  induction fuel with
  | zero =>
      intro t0 t1 hlen _
      have h : t0 = [] := List.eq_nil_of_length_eq_zero (by omega)
      subst h
      rfl
  | succ k ih =>
      intro t0 t1 hlen hmod
      rcases t0 with _ | ⟨c0, _ | ⟨c1, _ | ⟨c2, _ | ⟨c3, _ | ⟨c4, rest⟩⟩⟩⟩⟩
      · rfl
      · simp at hmod
      · simp at hmod
      · simp at hmod
      · simp at hmod
      · rw [List.cons_append, List.cons_append, List.cons_append, List.cons_append,
          List.cons_append, chunkby5_cons, chunkby5_cons,
          ih rest t1 (by simp at hlen; omega) (by simp at hmod ⊢; omega),
          List.cons_append]

/-- A chunk whose conversion fails aborts the rest of the pipeline. -/
lemma decode_chunks_cons_error (c : Base8xCodec) (g : List Nat) (np : Nat)
    (rest : List (List Nat × Nat)) (e : DecodeErr)
    (hg : _get_num_by_seq_dec c.alphabet g = .error e) :
    c.decode_chunks ((g, np) :: rest) = .error e := by
  rw [decode_chunks_cons, hg]

/-- An error in the remaining chunks propagates past a successful chunk. -/
lemma decode_chunks_cons_ok_error (c : Base8xCodec) (g : List Nat) (np v : Nat)
    (rest : List (List Nat × Nat)) (e : DecodeErr)
    (hg : _get_num_by_seq_dec c.alphabet g = .ok v)
    (hrest : c.decode_chunks rest = .error e) :
    c.decode_chunks ((g, np) :: rest) = .error e := by
  rw [decode_chunks_cons, hg, hrest]

/-- An error in a chunk list prefix decides the whole pipeline. -/
lemma decode_chunks_append_err_left (c : Base8xCodec) :
    ∀ (xs ys : List (List Nat × Nat)) (e : DecodeErr),
      c.decode_chunks xs = .error e →
      c.decode_chunks (xs ++ ys) = .error e := by
  intro xs
  induction xs with
  | nil =>
      intro ys e h
      rw [decode_chunks_nil] at h
      cases h
  | cons hd tl ih =>
      intro ys e h
      obtain ⟨g, np⟩ := hd
      rw [List.cons_append]
      cases hg : _get_num_by_seq_dec c.alphabet g with
      | error e2 =>
          rw [decode_chunks_cons_error c g np tl e2 hg] at h
          cases h
          exact decode_chunks_cons_error c g np _ _ hg
      | ok val =>
          cases htl : c.decode_chunks tl with
          | error e2 =>
              rw [decode_chunks_cons_ok_error c g np val tl e2 hg htl] at h
              cases h
              exact decode_chunks_cons_ok_error c g np val _ _ hg (ih ys _ htl)
          | ok tail =>
              rw [decode_chunks_cons_ok_ok c g np val tl tail hg htl] at h
              cases h

/-- A successful prefix followed by a failing suffix fails with the suffix's
error. -/
lemma decode_chunks_append_ok_error (c : Base8xCodec) :
    ∀ (xs ys : List (List Nat × Nat)) (v : List Nat) (e : DecodeErr),
      c.decode_chunks xs = .ok v → c.decode_chunks ys = .error e →
      c.decode_chunks (xs ++ ys) = .error e := by
  intro xs
  induction xs with
  | nil =>
      intro ys v e _ hy
      rw [List.nil_append]
      exact hy
  | cons hd tl ih =>
      intro ys v e hx hy
      obtain ⟨g, np⟩ := hd
      rw [List.cons_append]
      cases hg : _get_num_by_seq_dec c.alphabet g with
      | error e2 =>
          rw [decode_chunks_cons_error c g np tl e2 hg] at hx
          cases hx
      | ok val =>
          cases htl : c.decode_chunks tl with
          | error e2 =>
              rw [decode_chunks_cons_ok_error c g np val tl e2 hg htl] at hx
              cases hx
          | ok tail =>
              exact decode_chunks_cons_ok_error c g np val _ e hg (ih ys tail e htl hy)

/-- Two successful chunk lists concatenate their outputs. -/
lemma decode_chunks_append_ok_ok (c : Base8xCodec) :
    ∀ (xs ys : List (List Nat × Nat)) (v w : List Nat),
      c.decode_chunks xs = .ok v → c.decode_chunks ys = .ok w →
      c.decode_chunks (xs ++ ys) = .ok (v ++ w) := by
  intro xs
  induction xs with
  | nil =>
      intro ys v w hx hy
      rw [decode_chunks_nil] at hx
      cases hx
      rw [List.nil_append, List.nil_append]
      exact hy
  | cons hd tl ih =>
      intro ys v w hx hy
      obtain ⟨g, np⟩ := hd
      rw [List.cons_append]
      cases hg : _get_num_by_seq_dec c.alphabet g with
      | error e2 =>
          rw [decode_chunks_cons_error c g np tl e2 hg] at hx
          cases hx
      | ok val =>
          cases htl : c.decode_chunks tl with
          | error e2 =>
              rw [decode_chunks_cons_ok_error c g np val tl e2 hg htl] at hx
              cases hx
          | ok tail =>
              rw [decode_chunks_cons_ok_ok c g np val tl tail hg htl] at hx
              cases hx
              rw [decode_chunks_cons_ok_ok c g np val _ (tail ++ w) hg (ih ys tail w htl hy),
                List.append_assoc]

/-- Scanning a group whose first out-of-alphabet character sits at position
`i` fails with exactly that character and position. -/
lemma get_num_first_bad (a : List Nat) (g : List Nat) (i : Nat) (hi : i < 5)
    (hpre : ∀ j, j < i → g.getD j 0 ∈ a) (hbad : g.getD i 0 ∉ a) :
    _get_num_by_seq_dec a g = .error (.illegalCharacter g (g.getD i 0) i) := by
  have hnone := ordLookup_eq_none a _ hbad
  unfold _get_num_by_seq_dec
  rw [powersenum_eq]
  interval_cases i
  · simp only [get_num_by_seq_dec_aux, hnone]
  · obtain ⟨p0, hp0, -⟩ := ordLookup_of_mem a _ (hpre 0 (by omega))
    simp only [get_num_by_seq_dec_aux, hp0, hnone]
  · obtain ⟨p0, hp0, -⟩ := ordLookup_of_mem a _ (hpre 0 (by omega))
    obtain ⟨p1, hp1, -⟩ := ordLookup_of_mem a _ (hpre 1 (by omega))
    simp only [get_num_by_seq_dec_aux, hp0, hp1, hnone]
  · obtain ⟨p0, hp0, -⟩ := ordLookup_of_mem a _ (hpre 0 (by omega))
    obtain ⟨p1, hp1, -⟩ := ordLookup_of_mem a _ (hpre 1 (by omega))
    obtain ⟨p2, hp2, -⟩ := ordLookup_of_mem a _ (hpre 2 (by omega))
    simp only [get_num_by_seq_dec_aux, hp0, hp1, hp2, hnone]
  · obtain ⟨p0, hp0, -⟩ := ordLookup_of_mem a _ (hpre 0 (by omega))
    obtain ⟨p1, hp1, -⟩ := ordLookup_of_mem a _ (hpre 1 (by omega))
    obtain ⟨p2, hp2, -⟩ := ordLookup_of_mem a _ (hpre 2 (by omega))
    obtain ⟨p3, hp3, -⟩ := ordLookup_of_mem a _ (hpre 3 (by omega))
    simp only [get_num_by_seq_dec_aux, hp0, hp1, hp2, hp3, hnone]

/-- Decoding the single chunk made of one character and four copies of the
top padding character yields no bytes (the whole quartet is trimmed),
provided the group value passes the `_MAXVAL` check. -/
lemma decode_chunks_pad_group (a : List Nat) (hnd : a.Nodup) (h85 : 85 ≤ a.length)
    (ch p : Nat) (hp : ordLookup a ch = some p)
    (hbound : p * a.length ^ 4 +
        (a.length - 1) * (a.length ^ 3 + a.length ^ 2 + a.length + 1) ≤
      2 ^ 32 - 1) :
    Base8xCodec.decode_chunks ⟨a⟩
      [([ch, a.getD (a.length - 1) 0, a.getD (a.length - 1) 0,
         a.getD (a.length - 1) 0, a.getD (a.length - 1) 0], 4)] = .ok [] := by
  have hlt : a.length - 1 < a.length := by omega
  obtain ⟨hplt, hchg⟩ := ordLookup_some a ch p hp
  have heq : p * a.length ^ 4 + (a.length - 1) * a.length ^ 3 +
      (a.length - 1) * a.length ^ 2 + (a.length - 1) * a.length ^ 1 +
      (a.length - 1) * a.length ^ 0 =
      p * a.length ^ 4 +
        (a.length - 1) * (a.length ^ 3 + a.length ^ 2 + a.length + 1) := by
    ring
  rw [← hchg,
    decode_chunks_single_ok ⟨a⟩ _ 4 _
      (by
        rw [alphabet_mk]
        exact get_num_digits_ok a hnd p (a.length - 1) (a.length - 1) (a.length - 1)
          (a.length - 1) hplt hlt hlt hlt hlt (by rw [heq]; exact hbound))]
  rfl

/-- A non-empty list is its dropLast part plus its last element. -/
lemma dropLast_append_pad (l : List Nat) (h : l ≠ []) :
    l.dropLast ++ [l.getLast?.getD 0] = l := by
  rw [List.getLast?_eq_getLast l h, Option.getD_some]
  exact List.dropLast_append_getLast h

/-- Decoding text whose first group past a decodable prefix contains an
out-of-alphabet character fails with that character and position. -/
lemma c8_aux (a : List Nat) (hnd : a.Nodup) (h85 : 85 ≤ a.length)
    (t0 t1 : List Nat) (hm : t0.length % 5 = 0) (v0 : List Nat)
    (hok : Base8xCodec.decode ⟨a⟩ t0 = .ok v0)
    (i : Nat) (hi : i < 5) (hit : i < t1.length)
    (hpre : ∀ j, j < i → t1.getD j 0 ∈ a) (hbad : t1.getD i 0 ∉ a) :
    ∃ g, Base8xCodec.decode ⟨a⟩ (t0 ++ t1) =
        .error (.illegalCharacter g (t1.getD i 0) i) ∧
      g.getD i 0 = t1.getD i 0 ∧
      ∀ w, Base8xCodec.decode ⟨a⟩ (t0 ++ t1) ≠ .ok w := by
  have hok' : Base8xCodec.decode_chunks ⟨a⟩
      (_chunkby 5 (some (a.getLast?.getD 0)) t0) = .ok v0 := hok
  rcases t1 with _ | ⟨c0, _ | ⟨c1, _ | ⟨c2, _ | ⟨c3, _ | ⟨c4, t5⟩⟩⟩⟩⟩
  · simp at hit
  · have hi1 : i = 0 := by simp at hit; omega
    subst hi1
    have herr : Base8xCodec.decode ⟨a⟩ (t0 ++ [c0]) =
        .error (.illegalCharacter
          [c0, a.getLast?.getD 0, a.getLast?.getD 0, a.getLast?.getD 0,
            a.getLast?.getD 0] (([c0] : List Nat).getD 0 0) 0) := by
      show Base8xCodec.decode_chunks ⟨a⟩
        (_chunkby 5 (some (a.getLast?.getD 0)) (t0 ++ [c0])) = _
      rw [chunkby5_append (some (a.getLast?.getD 0)) t0.length t0 [c0] le_rfl hm,
        chunkby5_tail1]
      exact decode_chunks_append_ok_error ⟨a⟩ _ _ v0 _ hok'
        (decode_chunks_cons_error ⟨a⟩ _ 4 [] _
          (get_num_first_bad a _ 0 (by omega)
            (fun j hj => absurd hj (by omega)) hbad))
    exact ⟨_, herr, rfl, fun w hw => by rw [herr] at hw; cases hw⟩
  · have hi2 : i < 2 := by simpa using hit
    have hgd : ([c0, c1, a.getLast?.getD 0, a.getLast?.getD 0,
        a.getLast?.getD 0] : List Nat).getD i 0 = ([c0, c1] : List Nat).getD i 0 := by
      interval_cases i <;> rfl
    have hpre' : ∀ j, j < i → ([c0, c1, a.getLast?.getD 0, a.getLast?.getD 0,
        a.getLast?.getD 0] : List Nat).getD j 0 ∈ a := by
      intro j hj
      have hj2 : j < 2 := by omega
      have hjg : ([c0, c1, a.getLast?.getD 0, a.getLast?.getD 0,
          a.getLast?.getD 0] : List Nat).getD j 0 = ([c0, c1] : List Nat).getD j 0 := by
        interval_cases j <;> rfl
      rw [hjg]
      exact hpre j hj
    have hbad' : ([c0, c1, a.getLast?.getD 0, a.getLast?.getD 0,
        a.getLast?.getD 0] : List Nat).getD i 0 ∉ a := by
      rw [hgd]
      exact hbad
    have hfb := get_num_first_bad a _ i hi hpre' hbad'
    rw [hgd] at hfb
    have herr : Base8xCodec.decode ⟨a⟩ (t0 ++ [c0, c1]) =
        .error (.illegalCharacter
          [c0, c1, a.getLast?.getD 0, a.getLast?.getD 0, a.getLast?.getD 0]
          (([c0, c1] : List Nat).getD i 0) i) := by
      show Base8xCodec.decode_chunks ⟨a⟩
        (_chunkby 5 (some (a.getLast?.getD 0)) (t0 ++ [c0, c1])) = _
      rw [chunkby5_append (some (a.getLast?.getD 0)) t0.length t0 [c0, c1] le_rfl hm,
        chunkby5_tail2]
      exact decode_chunks_append_ok_error ⟨a⟩ _ _ v0 _ hok'
        (decode_chunks_cons_error ⟨a⟩ _ 3 [] _ hfb)
    exact ⟨_, herr, hgd, fun w hw => by rw [herr] at hw; cases hw⟩
  · have hi3 : i < 3 := by simpa using hit
    have hgd : ([c0, c1, c2, a.getLast?.getD 0,
        a.getLast?.getD 0] : List Nat).getD i 0 =
        ([c0, c1, c2] : List Nat).getD i 0 := by
      interval_cases i <;> rfl
    have hpre' : ∀ j, j < i → ([c0, c1, c2, a.getLast?.getD 0,
        a.getLast?.getD 0] : List Nat).getD j 0 ∈ a := by
      intro j hj
      have hj3 : j < 3 := by omega
      have hjg : ([c0, c1, c2, a.getLast?.getD 0,
          a.getLast?.getD 0] : List Nat).getD j 0 =
          ([c0, c1, c2] : List Nat).getD j 0 := by
        interval_cases j <;> rfl
      rw [hjg]
      exact hpre j hj
    have hbad' : ([c0, c1, c2, a.getLast?.getD 0,
        a.getLast?.getD 0] : List Nat).getD i 0 ∉ a := by
      rw [hgd]
      exact hbad
    have hfb := get_num_first_bad a _ i hi hpre' hbad'
    rw [hgd] at hfb
    have herr : Base8xCodec.decode ⟨a⟩ (t0 ++ [c0, c1, c2]) =
        .error (.illegalCharacter
          [c0, c1, c2, a.getLast?.getD 0, a.getLast?.getD 0]
          (([c0, c1, c2] : List Nat).getD i 0) i) := by
      show Base8xCodec.decode_chunks ⟨a⟩
        (_chunkby 5 (some (a.getLast?.getD 0)) (t0 ++ [c0, c1, c2])) = _
      rw [chunkby5_append (some (a.getLast?.getD 0)) t0.length t0 [c0, c1, c2]
        le_rfl hm, chunkby5_tail3]
      exact decode_chunks_append_ok_error ⟨a⟩ _ _ v0 _ hok'
        (decode_chunks_cons_error ⟨a⟩ _ 2 [] _ hfb)
    exact ⟨_, herr, hgd, fun w hw => by rw [herr] at hw; cases hw⟩
  · have hi4 : i < 4 := by simpa using hit
    have hgd : ([c0, c1, c2, c3, a.getLast?.getD 0] : List Nat).getD i 0 =
        ([c0, c1, c2, c3] : List Nat).getD i 0 := by
      interval_cases i <;> rfl
    have hpre' : ∀ j, j < i →
        ([c0, c1, c2, c3, a.getLast?.getD 0] : List Nat).getD j 0 ∈ a := by
      intro j hj
      have hj4 : j < 4 := by omega
      have hjg : ([c0, c1, c2, c3, a.getLast?.getD 0] : List Nat).getD j 0 =
          ([c0, c1, c2, c3] : List Nat).getD j 0 := by
        interval_cases j <;> rfl
      rw [hjg]
      exact hpre j hj
    have hbad' : ([c0, c1, c2, c3, a.getLast?.getD 0] : List Nat).getD i 0 ∉ a := by
      rw [hgd]
      exact hbad
    have hfb := get_num_first_bad a _ i hi hpre' hbad'
    rw [hgd] at hfb
    have herr : Base8xCodec.decode ⟨a⟩ (t0 ++ [c0, c1, c2, c3]) =
        .error (.illegalCharacter [c0, c1, c2, c3, a.getLast?.getD 0]
          (([c0, c1, c2, c3] : List Nat).getD i 0) i) := by
      show Base8xCodec.decode_chunks ⟨a⟩
        (_chunkby 5 (some (a.getLast?.getD 0)) (t0 ++ [c0, c1, c2, c3])) = _
      rw [chunkby5_append (some (a.getLast?.getD 0)) t0.length t0 [c0, c1, c2, c3]
        le_rfl hm, chunkby5_tail4]
      exact decode_chunks_append_ok_error ⟨a⟩ _ _ v0 _ hok'
        (decode_chunks_cons_error ⟨a⟩ _ 1 [] _ hfb)
    exact ⟨_, herr, hgd, fun w hw => by rw [herr] at hw; cases hw⟩
  · have hgd : ([c0, c1, c2, c3, c4] : List Nat).getD i 0 =
        (c0 :: c1 :: c2 :: c3 :: c4 :: t5).getD i 0 := by
      interval_cases i <;> rfl
    have hpre' : ∀ j, j < i → ([c0, c1, c2, c3, c4] : List Nat).getD j 0 ∈ a := by
      intro j hj
      have hj5 : j < 5 := by omega
      have hjg : ([c0, c1, c2, c3, c4] : List Nat).getD j 0 =
          (c0 :: c1 :: c2 :: c3 :: c4 :: t5).getD j 0 := by
        interval_cases j <;> rfl
      rw [hjg]
      exact hpre j hj
    have hbad' : ([c0, c1, c2, c3, c4] : List Nat).getD i 0 ∉ a := by
      rw [hgd]
      exact hbad
    have hfb := get_num_first_bad a _ i hi hpre' hbad'
    rw [hgd] at hfb
    have herr : Base8xCodec.decode ⟨a⟩ (t0 ++ (c0 :: c1 :: c2 :: c3 :: c4 :: t5)) =
        .error (.illegalCharacter [c0, c1, c2, c3, c4]
          ((c0 :: c1 :: c2 :: c3 :: c4 :: t5).getD i 0) i) := by
      show Base8xCodec.decode_chunks ⟨a⟩
        (_chunkby 5 (some (a.getLast?.getD 0))
          (t0 ++ (c0 :: c1 :: c2 :: c3 :: c4 :: t5))) = _
      rw [chunkby5_append (some (a.getLast?.getD 0)) t0.length t0 _ le_rfl hm,
        chunkby5_cons]
      exact decode_chunks_append_ok_error ⟨a⟩ _ _ v0 _ hok'
        (decode_chunks_cons_error ⟨a⟩ _ 0 _ _ hfb)
    exact ⟨_, herr, hgd, fun w hw => by rw [herr] at hw; cases hw⟩

/-- C8: for every codec and input text whose groups before some group decode
successfully while that group's first out-of-alphabet character `t1.getD i 0`
sits at position `i` of the group, decoding fails with an `IllegalCharacter`
error carrying the offending character (its own code point is its ordinal),
its position `i` inside the 5-character group, and the group itself; no
partial result is returned.  `t0` is the decodable whole-group prefix and
`t1` the remainder starting at the offending group. -/
theorem c8_illegal_character (a : List Nat) (c : Base8xCodec)
    (hc : Base8xCodec.mk? a = some c) (t0 t1 : List Nat)
    (hm : t0.length % 5 = 0) (v0 : List Nat) (hok : c.decode t0 = .ok v0)
    (i : Nat) (hi : i < 5) (hit : i < t1.length)
    (hpre : ∀ j, j < i → t1.getD j 0 ∈ a) (hbad : t1.getD i 0 ∉ a) :
    ∃ g, c.decode (t0 ++ t1) = .error (.illegalCharacter g (t1.getD i 0) i) ∧
      g.getD i 0 = t1.getD i 0 ∧ ∀ w, c.decode (t0 ++ t1) ≠ .ok w := by
  obtain ⟨halph, hnd, h85, -, -⟩ := mk?_sound a c hc
  obtain ⟨l⟩ := c
  rw [alphabet_mk] at halph
  subst halph
  exact c8_aux _ hnd h85 t0 t1 hm v0 hok i hi hit hpre hbad

/-- Witness for C8: decoding the character 200, outside the Adobe-85-style
alphabet, fails with an illegal-character error at position 0. -/
theorem c8_illegal_character_witness :
    ∃ g, adobe85codec.decode ([] ++ [200]) =
        .error (.illegalCharacter g (([200] : List Nat).getD 0 0) 0) ∧
      g.getD 0 0 = ([200] : List Nat).getD 0 0 ∧
      ∀ w, adobe85codec.decode ([] ++ [200]) ≠ .ok w :=
  c8_illegal_character adobe85alphabet adobe85codec (by rfl) [] [200] (by decide)
    [] (by rfl) 0 (by decide) (by decide) (fun j hj => absurd hj (by omega))
    (by decide)

/-- Decoding a single character whose padded-group value is within range
succeeds with no output bytes. -/
lemma c10_aux_single (a : List Nat) (hnd : a.Nodup) (h85 : 85 ≤ a.length)
    (ch p : Nat) (hp : ordLookup a ch = some p)
    (hbound : p * a.length ^ 4 +
        (a.length - 1) * (a.length ^ 3 + a.length ^ 2 + a.length + 1) ≤
      2 ^ 32 - 1) :
    Base8xCodec.decode ⟨a⟩ [ch] = .ok [] := by
  have hane : a ≠ [] := by
    intro he
    rw [he] at h85
    simp at h85
  show Base8xCodec.decode_chunks ⟨a⟩
    (_chunkby 5 (some (a.getLast?.getD 0)) [ch]) = .ok []
  rw [chunkby5_tail1, getLast?_getD_eq a hane]
  exact decode_chunks_pad_group a hnd h85 ch p hp hbound

/-- Dropping the last character of a text of length 1 modulo 5 does not
change the decoding, provided the final padded group passes the range
check. -/
lemma c10_aux_drop (a : List Nat) (hnd : a.Nodup) (h85 : 85 ≤ a.length)
    (t : List Nat) (hlen : t.length % 5 = 1) (p : Nat)
    (hp : ordLookup a (t.getLast?.getD 0) = some p)
    (hbound : p * a.length ^ 4 +
        (a.length - 1) * (a.length ^ 3 + a.length ^ 2 + a.length + 1) ≤
      2 ^ 32 - 1) :
    Base8xCodec.decode ⟨a⟩ t = Base8xCodec.decode ⟨a⟩ t.dropLast := by
  have hane : a ≠ [] := by
    intro he
    rw [he] at h85
    simp at h85
  have hne : t ≠ [] := by
    intro he
    rw [he] at hlen
    simp at hlen
  conv_lhs => rw [← dropLast_append_pad t hne]
  show Base8xCodec.decode_chunks ⟨a⟩
      (_chunkby 5 (some (a.getLast?.getD 0)) (t.dropLast ++ [t.getLast?.getD 0])) =
    Base8xCodec.decode_chunks ⟨a⟩ (_chunkby 5 (some (a.getLast?.getD 0)) t.dropLast)
  rw [chunkby5_append (some (a.getLast?.getD 0)) t.dropLast.length t.dropLast
    [t.getLast?.getD 0] le_rfl (by rw [List.length_dropLast]; omega),
    chunkby5_tail1, getLast?_getD_eq a hane]
  have hgrp := decode_chunks_pad_group a hnd h85 (t.getLast?.getD 0) p hp hbound
  cases hres : Base8xCodec.decode_chunks ⟨a⟩
      (_chunkby 5 (some (a.getD (a.length - 1) 0)) t.dropLast) with
  | error e => rw [decode_chunks_append_err_left ⟨a⟩ _ _ e hres]
  | ok v => rw [decode_chunks_append_ok_ok ⟨a⟩ _ _ v [] hres hgrp, List.append_nil]

/-- C10: decode accepts lengths that encode never produces.  First, for a
codec of radix r, a single alphabet character at digit position p decodes to
the empty byte sequence whenever the padded group value
`p * r^4 + (r-1) * (r^3 + r^2 + r + 1)` does not exceed `2^32 - 1` (a group
of length 1 has padding count 4, so all 4 decoded bytes are trimmed).
Second, any text of length 1 modulo 5 whose final one-character group passes
that check decodes exactly as the same text without its last character. -/
theorem c10_decode_length_mod1 :
    (∀ (a : List Nat) (c : Base8xCodec), Base8xCodec.mk? a = some c →
      ∀ ch p : Nat, ordLookup a ch = some p →
        p * a.length ^ 4 +
            (a.length - 1) * (a.length ^ 3 + a.length ^ 2 + a.length + 1) ≤
          2 ^ 32 - 1 →
        c.decode [ch] = .ok []) ∧
    (∀ (a : List Nat) (c : Base8xCodec), Base8xCodec.mk? a = some c →
      ∀ t : List Nat, t.length % 5 = 1 →
        ∀ p : Nat, ordLookup a (t.getLast?.getD 0) = some p →
          p * a.length ^ 4 +
              (a.length - 1) * (a.length ^ 3 + a.length ^ 2 + a.length + 1) ≤
            2 ^ 32 - 1 →
          c.decode t = c.decode t.dropLast) := by
  constructor
  · intro a c hc ch p hp hb
    obtain ⟨halph, hnd, h85, -, -⟩ := mk?_sound a c hc
    obtain ⟨l⟩ := c
    rw [alphabet_mk] at halph
    subst halph
    exact c10_aux_single _ hnd h85 ch p hp hb
  · intro a c hc t hlen p hp hb
    obtain ⟨halph, hnd, h85, -, -⟩ := mk?_sound a c hc
    obtain ⟨l⟩ := c
    rw [alphabet_mk] at halph
    subst halph
    exact c10_aux_drop _ hnd h85 t hlen p hp hb

/-- Witness for C10 at the Z85 codec: the one-character text "0" decodes to
no bytes, and a 6-character text decodes like its 5-character prefix. -/
theorem c10_decode_length_mod1_witness :
    z85codec.decode [48] = .ok [] ∧
    z85codec.decode [48, 48, 48, 48, 48, 48] =
      z85codec.decode ([48, 48, 48, 48, 48, 48] : List Nat).dropLast :=
  ⟨c10_decode_length_mod1.1 z85alphabet z85codec (by decide) 48 0 (by decide)
     (by decide),
   c10_decode_length_mod1.2 z85alphabet z85codec (by decide)
     [48, 48, 48, 48, 48, 48] (by decide) 0 (by decide) (by decide)⟩

